import Mathlib

/-!
# Verification of the lust reader (src/lust-syntax/src/read)

Shallow embedding of the most complete draft of the reader:
`src/lust-syntax/src/read/mod.rs` (the chumsky-based grammar) together with
the tree model of `src/lust-syntax/src/read/sexpr.rs`.

Modelling conventions:
* `Span` is the half-open byte range `[start, end)`; the Rust field `end` is
  called `stop` here (`end` is a Lean keyword).  Offsets are `Nat` character
  offsets, which coincide with byte offsets on the ASCII inputs considered.
* `InternedString` is modelled as `String`: interning deduplicates text and
  handle equality coincides with text equality.
* `lust_utils::list::List<Sexpr>` (O(1) `push_front`) is modelled as
  `List Sexpr`; `push_front` is `List.cons` and `List::from(Vec)` preserves
  order.
* The two modules of the crate disagree: `mod.rs` constructs
  `SexprKind::List` and `AtomKind::Path`, neither of which is declared in
  `sexpr.rs` (whose `SexprKind` has `Atom`/`SynList`/`DataList`/`Vector` and
  whose `AtomKind` has `Sym`/`Lit` only); likewise `mod.rs` uses
  `Lit::Real`/`Lit::String` where `sexpr.rs` declares `Lit::Float`/`Lit::Str`.
  The embedding therefore carries the union of the variants of both files so
  that the parser of `mod.rs` is representable; the variants of `sexpr.rs`
  that the parser never produces (`SynList`, `DataList`, `Vector`, `Char`)
  are kept to document the mismatch.
* The `Sexpr { kind: Box<SexprKind>, span: Span }` pair is flattened into a
  single inductive: each constructor is one `SexprKind` variant paired with
  the node's `Span` (the `Box` indirection is immaterial in Lean).
* chumsky combinator semantics (version used by the crate, 1.0 alpha API) is
  embedded PEG-style: a parser is a function from a token index to
  `Option (value × next index)`; `or` is ordered choice that retries the next
  alternative from the same start position, `repeated` is the greedy loop,
  and `map_with_span` attaches the span of exactly the tokens the mapped
  parser consumed: from the start of the first consumed token to the end of
  the last one, and the zero-width span at the current token's start (or at
  the end-of-input sentinel) when nothing was consumed.  `Parser::parse`
  additionally requires the whole input to be consumed and yields no output
  on failure; `Rich` error contents are abstracted to a span (the span of
  the first unconsumed token).
-/

namespace Lust

/-- `lust_utils::span::Span`: half-open byte range `[start, end)`
(`end` renamed to `stop`). -/
structure Span where
  start : Nat
  stop : Nat
deriving DecidableEq, Repr

/-- `a.contains b`: the range `b` lies inside the range `a`. -/
def Span.contains (a b : Span) : Prop :=
  a.start ≤ b.start ∧ b.stop ≤ a.stop

instance (a b : Span) : Decidable (a.contains b) := by
  unfold Span.contains; infer_instance

/-- Literal values (`sexpr.rs::Lit`, union with the names used by
`mod.rs::lit_reader`, which writes `Lit::Real`/`Lit::String` for the
`Float`/`Str` declared in `sexpr.rs`).  Arbitrary-precision numbers:
`BigInt` as `Int`, `Float`/`BigRational` as `Rat`. -/
inductive Lit where
  | Int (n : Int)
  | Real (q : Rat)
  | Rational (q : Rat)
  | Bool (b : Bool)
  | Str (s : String)
  | Char (c : Char)
deriving DecidableEq, Repr

/-- Token kinds (`src/lust-syntax/src/read/token.rs` is not under `src/`;
the kind list follows spec §3 and the tokens consumed by `mod.rs`). -/
inductive Token where
  | LParen
  | RParen
  | LBrack
  | RBrack
  | HashLBrack
  | Quote
  | Backquote
  | Comma
  | CommaAt
  | Period
  | Ellipsis
  | Ident (name : String)
  | Int (n : Int)
  | Real (q : Rat)
  | Rational (q : Rat)
  | Bool (b : Bool)
  | Str (s : String)
  | Error
deriving DecidableEq, Repr

/-- `sexpr.rs::AtomKind` (`Sym`, `Lit`) plus the `Path` variant that
`mod.rs` constructs (ordered identifier sequence). -/
inductive AtomKind where
  | Sym (name : String)
  | Path (names : List String)
  | Lit (l : Lit)
deriving DecidableEq, Repr

/-- `sexpr.rs::Atom`: `(kind, span)` (the `Box` around the kind dropped). -/
structure Atom where
  kind : AtomKind
  span : Span
deriving DecidableEq, Repr

/-- `sexpr.rs::Sexpr`/`SexprKind` flattened: one constructor per
`SexprKind` variant, each paired with the node's span.  `List` is the
variant `mod.rs` constructs (it is absent from `sexpr.rs`); `SynList` and
`DataList` carry the extra span stored inside their `sexpr.rs` structs. -/
inductive Sexpr where
  | Atom (a : Atom) (span : Span)
  | List (xs : List Sexpr) (span : Span)
  | SynList (xs : List Sexpr) (inner : Span) (span : Span)
  | DataList (xs : List Sexpr) (inner : Span) (span : Span)
  | Vector (xs : List Sexpr) (span : Span)
deriving Repr

/-- The span stored at a node (`Sexpr::span`). -/
def Sexpr.span : Sexpr → Span
  | .Atom _ sp => sp
  | .List _ sp => sp
  | .SynList _ _ sp => sp
  | .DataList _ _ sp => sp
  | .Vector _ sp => sp

/-- `sexpr.rs::Root`: the top-level sequence and the whole-input span. -/
structure Root where
  sexprs : List Sexpr
  span : Span
deriving Repr

/-- `mod.rs::SyntaxError`.  The payload of `ParseError` (`chumsky::Rich`) is
abstracted to its span. -/
inductive SyntaxError where
  | LexError (span : Span)
  | ParseError (span : Span)
deriving DecidableEq, Repr

mutual

/-- Erase every span in a tree (for "structurally identical modulo span
values" statements). -/
def eraseSpan : Sexpr → Sexpr
  | .Atom a _ => .Atom ⟨a.kind, ⟨0, 0⟩⟩ ⟨0, 0⟩
  | .List xs _ => .List (eraseSpanList xs) ⟨0, 0⟩
  | .SynList xs _ _ => .SynList (eraseSpanList xs) ⟨0, 0⟩ ⟨0, 0⟩
  | .DataList xs _ _ => .DataList (eraseSpanList xs) ⟨0, 0⟩ ⟨0, 0⟩
  | .Vector xs _ => .Vector (eraseSpanList xs) ⟨0, 0⟩

/-- `eraseSpan` mapped over a list of children. -/
def eraseSpanList : List Sexpr → List Sexpr
  | [] => []
  | x :: xs => eraseSpan x :: eraseSpanList xs
end

/-! ## Token stream (spec §4.2, `Stream::from_iter(tokens).spanned(eoi)`) -/

/-- The token list plus the end-of-input sentinel span
(`Span::from(src.len()..src.len())` in `read`). -/
structure TokStream where
  toks : List (Token × Span)
  eoi : Span
deriving Repr

/-- The span of the token at index `i`, or the sentinel span past the end. -/
def TokStream.spanAt (s : TokStream) (i : Nat) : Span :=
  match s.toks.get? i with
  | some t => t.2
  | none => s.eoi

/-- The span chumsky attaches to the tokens consumed between indices `i`
(inclusive) and `j` (exclusive): from the start of token `i` to the end of
token `j - 1`; the zero-width span at the current position when the range
is empty. -/
def TokStream.range (s : TokStream) (i j : Nat) : Span :=
  if i < j then ⟨(s.spanAt i).start, (s.spanAt (j - 1)).stop⟩
  else ⟨(s.spanAt i).start, (s.spanAt i).start⟩

/-! ## Primitive parsers (`select!` / `just`), `mod.rs` lines 225-241 -/

/-- `ident_reader`: accept one `Token::Ident`, yielding its name. -/
def pIdent (s : TokStream) (i : Nat) : Option (String × Nat) :=
  match s.toks.get? i with
  | some (Token.Ident n, _) => some (n, i + 1)
  | _ => none

/-- `just(tok)`: accept exactly the given token. -/
def pJust (t : Token) (s : TokStream) (i : Nat) : Option Nat :=
  match s.toks.get? i with
  | some (t2, _) => if t2 = t then some (i + 1) else none
  | none => none

/-- `lit_reader`: accept one literal token, yielding its `Lit` value. -/
def pLit (s : TokStream) (i : Nat) : Option (Lit × Nat) :=
  match s.toks.get? i with
  | some (Token.Int n, _) => some (Lit.Int n, i + 1)
  | some (Token.Real q, _) => some (Lit.Real q, i + 1)
  | some (Token.Rational q, _) => some (Lit.Rational q, i + 1)
  | some (Token.Bool b, _) => some (Lit.Bool b, i + 1)
  | some (Token.Str str, _) => some (Lit.Str str, i + 1)
  | _ => none

/-- The greedy loop `just(Token::Period).ignore_then(ident_reader())
.repeated()` of the `path` production: collect `('.' identifier)`
pairs, rewinding to before the period when a pair does not match.
Each iteration consumes two tokens, so `s.toks.length` fuel always
suffices. -/
def pPathRest (s : TokStream) : Nat → Nat → List String × Nat
  | 0, i => ([], i)
  | fuel + 1, i =>
    match pJust Token.Period s i with
    | none => ([], i)
    | some j =>
      match pIdent s j with
      | none => ([], i)
      | some (n, k) =>
        match pPathRest s fuel k with
        | (ns, r) => (n :: ns, r)

/-- The `path` production (`mod.rs` lines 64-78): `identifier
('.' identifier)+`, at least one pair, yielding `AtomKind::Path` of the
ordered names. -/
def pPath (s : TokStream) (i : Nat) : Option (AtomKind × Nat) :=
  match pIdent s i with
  | none => none
  | some (n, j) =>
    match pPathRest s s.toks.length j with
    | ([], _) => none
    | (ns, k) => some (AtomKind.Path (n :: ns), k)

/-- The `atom` production (`mod.rs` lines 80-86): `path` or bare symbol or
literal, wrapped as `Atom` then `SexprKind::Atom` then `Sexpr`, both
`map_with_span` over the same consumed tokens. -/
def pAtom (s : TokStream) (i : Nat) : Option (Sexpr × Nat) :=
  match pPath s i with
  | some (k, j) => some (.Atom ⟨k, s.range i j⟩ (s.range i j), j)
  | none =>
    match pIdent s i with
    | some (n, j) => some (.Atom ⟨.Sym n, s.range i j⟩ (s.range i j), j)
    | none =>
      match pLit s i with
      | some (l, j) => some (.Atom ⟨.Lit l, s.range i j⟩ (s.range i j), j)
      | none => none

/-! ## The recursive grammar (`sexpr_reader`, `mod.rs` lines 61-223)

The nine productions are tried in the source's order: `variadic`, `list`,
`list_lit`, `vector`, `quote`, `quasiquote`, `unquote`, `unquote_splice`,
`atom`.  The source's `.or` chain is `orElseO` (ordered choice retrying
from the same start position).  The productions live inside the
`recursive` block in the source; here they are inlined into `pSexpr` so
that the recursion is structural on the fuel, which decreases at each
recursive `sexpr` reference.  `read` supplies fuel that is always
sufficient for its input. -/

/-- chumsky's `Parser::or`: try `a`; when it fails, try `b` from the same
start position. -/
def orElseO {α : Type} (a b : Option α) : Option α :=
  match a with
  | some r => some r
  | none => b

mutual

/-- One `Sexpr` at token index `i`, as `sexpr_reader` parses it. -/
def pSexpr (s : TokStream) : Nat → Nat → Option (Sexpr × Nat)
  | 0, _ => none
  | fuel + 1, i =>
    -- variadic: `identifier '...'` desugars to `(varg identifier)`;
    -- every synthesized span is the whole matched span (lines 196-211)
    orElseO
      (match pIdent s i with
       | some (n, j) =>
         match pJust Token.Ellipsis s j with
         | some k =>
           let sp := s.range i k
           some (Sexpr.List [.Atom ⟨.Sym "varg", sp⟩ sp, .Atom ⟨.Sym n, sp⟩ sp] sp, k)
         | none => none
       | none => none) <|
    -- list: `'(' Sexpr+ ')'`; the node span covers the children only,
    -- because `map_with_span` is applied before `delimited_by` (lines 88-96)
    orElseO
      (match pJust Token.LParen s i with
       | some j =>
         match pMany s fuel j with
         | (cs, k) =>
           if cs.isEmpty then none
           else
             match pJust Token.RParen s k with
             | some m => some (Sexpr.List cs (s.range j k), m)
             | none => none
       | none => none) <|
    -- list_lit: `'[' Sexpr+ ']'`; a `list` head symbol with zero-width span
    -- at the children's start is pushed in front, the head's wrapping node
    -- and the whole node take the children's span (lines 98-115)
    orElseO
      (match pJust Token.LBrack s i with
       | some j =>
         match pMany s fuel j with
         | (cs, k) =>
           if cs.isEmpty then none
           else
             match pJust Token.RBrack s k with
             | some m =>
               let sp := s.range j k
               some (Sexpr.List
                 (Sexpr.Atom ⟨.Sym "list", ⟨sp.start, sp.start⟩⟩ sp :: cs) sp, m)
             | none => none
       | none => none) <|
    -- vector: `'#[' Sexpr* ']'`, zero or more children, same `SexprKind::List`
    -- tag (lines 117-124)
    orElseO
      (match pJust Token.HashLBrack s i with
       | some j =>
         match pMany s fuel j with
         | (cs, k) =>
           match pJust Token.RBrack s k with
           | some m => some (Sexpr.List cs (s.range j k), m)
           | none => none
       | none => none) <|
    -- quote: `''' Sexpr` becomes `(quote <sexpr>)`; the head atom and its
    -- wrapping node carry the marker token's span, the whole node the span
    -- from the marker through the quoted form (lines 127-142)
    orElseO
      (match pJust Token.Quote s i with
       | some j =>
         let msp := s.spanAt i
         match pSexpr s fuel j with
         | some (e, k) =>
           some (Sexpr.List [.Atom ⟨.Sym "quote", msp⟩ msp, e] (s.range i k), k)
         | none => none
       | none => none) <|
    -- quasiquote (lines 144-159)
    orElseO
      (match pJust Token.Backquote s i with
       | some j =>
         let msp := s.spanAt i
         match pSexpr s fuel j with
         | some (e, k) =>
           some (Sexpr.List [.Atom ⟨.Sym "quasiquote", msp⟩ msp, e] (s.range i k), k)
         | none => none
       | none => none) <|
    -- unquote (lines 161-176)
    orElseO
      (match pJust Token.Comma s i with
       | some j =>
         let msp := s.spanAt i
         match pSexpr s fuel j with
         | some (e, k) =>
           some (Sexpr.List [.Atom ⟨.Sym "unquote", msp⟩ msp, e] (s.range i k), k)
         | none => none
       | none => none) <|
    -- unquote_splice (lines 178-193)
    orElseO
      (match pJust Token.CommaAt s i with
       | some j =>
         let msp := s.spanAt i
         match pSexpr s fuel j with
         | some (e, k) =>
           some (Sexpr.List [.Atom ⟨.Sym "unquote-splicing", msp⟩ msp, e] (s.range i k), k)
         | none => none
       | none => none) <|
    pAtom s i

/-- The greedy `sexpr.repeated()` loop: parse sexprs until one fails,
returning the children and the index reached. -/
def pMany (s : TokStream) : Nat → Nat → List Sexpr × Nat
  | 0, i => ([], i)
  | fuel + 1, i =>
    match pSexpr s fuel i with
    | none => ([], i)
    | some (e, j) =>
      match pMany s fuel j with
      | (es, k) => (e :: es, k)

end

/-! ## Root reader and entry point (`mod.rs` lines 26-59) -/

/-- `root_reader` composed with `Parser::parse`'s end-of-input requirement:
`sexpr_reader().repeated().collect().map_with_span(Root::new)`, then the
whole input must have been consumed.  On failure the output is absent and
the `Rich` error is abstracted to the span of the first unconsumed
token. -/
def pRoot (s : TokStream) (fuel : Nat) : Option Root × List SyntaxError :=
  match pMany s fuel 0 with
  | (es, k) =>
    if k = s.toks.length then (some (Root.mk es (s.range 0 k)), [])
    else (none, [SyntaxError.ParseError (s.spanAt k)])

/-- Modelled from the spec: the lexer of `src/lust-syntax/src/read/token.rs`
is not under `src/`; this scanner follows §3 (token kinds) and §4.1
(whitespace and comments carry no token; an unrecognized lexeme yields one
error item spanning the offending slice and scanning continues; numeric
sub-kinds are told apart lexically by the decimal point or rational
separator).  `none` marks an unscannable slice.  Identifiers are an
alphabetic character followed by alphanumerics, `-` or `_`; `...` lexes as
one ellipsis, `,@` as one comma-at, `#[` as one hash-bracket; the boolean,
character and string-escape surface forms are not pinned down by the spec
and are not exercised by any claim.  Each step consumes at least one
character, so `src.length` fuel suffices. -/
def lexChars : Nat → List Char → Nat → List (Option Token × Span)
  | 0, _, _ => []
  | _, [], _ => []
  | fuel + 1, c :: cs, pos =>
    if c = ' ' ∨ c = '\n' ∨ c = '\t' ∨ c = '\r' then
      lexChars fuel cs (pos + 1)
    else if c = '(' then (some .LParen, ⟨pos, pos + 1⟩) :: lexChars fuel cs (pos + 1)
    else if c = ')' then (some .RParen, ⟨pos, pos + 1⟩) :: lexChars fuel cs (pos + 1)
    else if c = '[' then (some .LBrack, ⟨pos, pos + 1⟩) :: lexChars fuel cs (pos + 1)
    else if c = ']' then (some .RBrack, ⟨pos, pos + 1⟩) :: lexChars fuel cs (pos + 1)
    else if c = '\'' then (some .Quote, ⟨pos, pos + 1⟩) :: lexChars fuel cs (pos + 1)
    else if c = '`' then (some .Backquote, ⟨pos, pos + 1⟩) :: lexChars fuel cs (pos + 1)
    else if c = ',' then
      match cs with
      | '@' :: cs2 => (some .CommaAt, ⟨pos, pos + 2⟩) :: lexChars fuel cs2 (pos + 2)
      | _ => (some .Comma, ⟨pos, pos + 1⟩) :: lexChars fuel cs (pos + 1)
    else if c = '#' then
      match cs with
      | '[' :: cs2 => (some .HashLBrack, ⟨pos, pos + 2⟩) :: lexChars fuel cs2 (pos + 2)
      | _ => (none, ⟨pos, pos + 1⟩) :: lexChars fuel cs (pos + 1)
    else if c = '.' then
      match cs with
      | '.' :: '.' :: cs2 => (some .Ellipsis, ⟨pos, pos + 3⟩) :: lexChars fuel cs2 (pos + 3)
      | _ => (some .Period, ⟨pos, pos + 1⟩) :: lexChars fuel cs (pos + 1)
    else if c.isDigit then
      match List.span Char.isDigit (c :: cs) with
      | (ds, rest) =>
        let n : Int := Int.ofNat (ds.foldl (fun acc d => acc * 10 + (d.toNat - 48)) 0)
        (some (.Int n), ⟨pos, pos + ds.length⟩) :: lexChars fuel rest (pos + ds.length)
    else if c.isAlpha then
      match List.span (fun d => d.isAlphanum ∨ d = '-' ∨ d = '_') (c :: cs) with
      | (ws, rest) =>
        (some (.Ident ⟨ws⟩), ⟨pos, pos + ws.length⟩) :: lexChars fuel rest (pos + ws.length)
    else (none, ⟨pos, pos + 1⟩) :: lexChars fuel cs (pos + 1)

/-- Modelled from the spec: `Token::lexer(src).spanned()`, the spanned item
sequence the `for` loop in `read` consumes. -/
def lex (src : String) : List (Option Token × Span) :=
  lexChars src.length src.toList 0

/-- The token-collection loop of `read` (`mod.rs` lines 28-37): an `Ok`
token is pushed; an `Err` item records one `LexError` and pushes a
`Token::Error` in its place. -/
def collectTokens : List (Option Token × Span) → List SyntaxError × List (Token × Span)
  | [] => ([], [])
  | (some tok, sp) :: rest =>
    match collectTokens rest with
    | (es, ts) => (es, (tok, sp) :: ts)
  | (none, sp) :: rest =>
    match collectTokens rest with
    | (es, ts) => (SyntaxError.LexError sp :: es, (Token.Error, sp) :: ts)

/-- The token stream `read` builds: the collected tokens with the
end-of-input sentinel span `[src.len(), src.len())`. -/
def stream (src : String) : TokStream :=
  ⟨(collectTokens (lex src)).2, ⟨src.length, src.length⟩⟩

/-- `read` (`mod.rs` lines 26-50): lex, abort with only the lex faults if
any occurred, otherwise run the grammar on the spanned token stream.  The
fuel `2 * length + 2` is always sufficient: a fuel level is spent only when
entering a production or one step of the top-level loop, each of which
consumes at least one token or immediately stops. -/
def read (src : String) : Option Root × List SyntaxError :=
  match collectTokens (lex src) with
  | (errs, toks) =>
    if errs.isEmpty then
      pRoot ⟨toks, ⟨src.length, src.length⟩⟩ (2 * toks.length + 2)
    else (none, errs)

/-- The lex-fault spans of a source text, in order. -/
def lexFaults (src : String) : List Span :=
  ((lex src).filter (fun it => it.1.isNone)).map (fun it => it.2)

/-! ## Predicates and auxiliary streams for the claims -/

/-- The child-containment part of the span invariant of spec §3: every
node's span contains the spans of all of its children, recursively. -/
inductive SpansNested : Sexpr → Prop where
  | Atom : ∀ a sp, SpansNested (.Atom a sp)
  | List : ∀ xs sp, (∀ x ∈ xs, Span.contains sp (Sexpr.span x)) →
      (∀ x ∈ xs, SpansNested x) → SpansNested (.List xs sp)
  | SynList : ∀ xs isp sp, (∀ x ∈ xs, Span.contains sp (Sexpr.span x)) →
      (∀ x ∈ xs, SpansNested x) → SpansNested (.SynList xs isp sp)
  | DataList : ∀ xs isp sp, (∀ x ∈ xs, Span.contains sp (Sexpr.span x)) →
      (∀ x ∈ xs, SpansNested x) → SpansNested (.DataList xs isp sp)
  | Vector : ∀ xs sp, (∀ x ∈ xs, Span.contains sp (Sexpr.span x)) →
      (∀ x ∈ xs, SpansNested x) → SpansNested (.Vector xs sp)

/-- Well-formedness of a lexed token stream: spans are ordered along the
stream and each span (the sentinel included) is non-degenerate.  Only
positions up to the stream length matter, which keeps the predicate
decidable for concrete streams. -/
def TokStream.Monotone (s : TokStream) : Prop :=
  (∀ i, i ≤ s.toks.length → (s.spanAt i).start ≤ (s.spanAt i).stop) ∧
  (∀ i, i ≤ s.toks.length → ∀ j, j ≤ s.toks.length → i ≤ j →
    (s.spanAt i).start ≤ (s.spanAt j).start ∧ (s.spanAt i).stop ≤ (s.spanAt j).stop)

/-- `('.' identifier)` token pairs (spans immaterial for the path claim). -/
def pairToks : List String → List (Token × Span)
  | [] => []
  | n :: ns => (Token.Period, ⟨0, 0⟩) :: (Token.Ident n, ⟨0, 0⟩) :: pairToks ns

/-- The token sequence of a dotted path `a.n1.n2...`. -/
def pathToks (a : String) (rest : List String) : List (Token × Span) :=
  (Token.Ident a, ⟨0, 0⟩) :: pairToks rest

instance (s : TokStream) : Decidable s.Monotone := by
  unfold TokStream.Monotone; infer_instance

/-- The invariant a successful `pSexpr` parse maintains: progress, a
position within the stream, the child-containment span invariant, and the
node's span lying inside the consumed token range. -/
def SexprInv (s : TokStream) (i : Nat) (e : Sexpr) (j : Nat) : Prop :=
  i < j ∧ j ≤ s.toks.length ∧ SpansNested e ∧ (s.range i j).contains e.span

/-- The invariant the greedy `pMany` loop maintains over its children and
final position. -/
def ManyInv (s : TokStream) (i : Nat) (cs : List Sexpr) (k : Nat) : Prop :=
  i ≤ k ∧ (k ≤ s.toks.length ∨ k = i) ∧ (cs = [] → k = i) ∧ (cs ≠ [] → i < k) ∧
    ∀ c ∈ cs, SpansNested c ∧ (s.range i k).contains (Sexpr.span c)

/-! ## Claim theorems: direct evaluations -/

/-- C1 (code_bug evidence): at the failing input `[1 2 3]` the reader does
NOT build a `DataList`; `list_lit` pushes a synthesized `list` head symbol
(zero-width span at the content's start) in front of the three parsed
integer literals and tags the node `SexprKind::List` — a variant that
`sexpr.rs` does not even declare.  The claim's `DataList`-with-no-head
behavior is what the data model of `sexpr.rs` supports; the parser
contradicts it. -/
theorem c1_bracket_list_eval :
    read "[1 2 3]"
      = (some ⟨[Sexpr.List
          [.Atom ⟨.Sym "list", ⟨1, 1⟩⟩ ⟨1, 6⟩,
           .Atom ⟨.Lit (.Int 1), ⟨1, 2⟩⟩ ⟨1, 2⟩,
           .Atom ⟨.Lit (.Int 2), ⟨3, 4⟩⟩ ⟨3, 4⟩,
           .Atom ⟨.Lit (.Int 3), ⟨5, 6⟩⟩ ⟨5, 6⟩] ⟨1, 6⟩], ⟨0, 7⟩⟩, []) := rfl

/-- C2 (counterexample): for the input `"(1 2\n3"` — one malformed
top-level form followed by the well-formed sibling `3` — the claim asserts
a present tree containing the sibling; the code has no recovery
(`root_reader` uses no `recover_with`), so the returned tree is absent. -/
theorem c2_counterexample :
    (read "(1 2\n3").1 = none ∧ (read "(1 2\n3").2 ≠ [] :=
  ⟨rfl, by decide⟩

/-- C2 (amended): a parse failure inside a top-level form makes the whole
read fail: at `"(1 2\n3"` the reader returns an absent tree together with
one `ParseError`; the valid trailing sibling form is discarded, not
recovered. -/
theorem c2_no_recovery :
    read "(1 2\n3" = (none, [SyntaxError.ParseError ⟨0, 1⟩]) := rfl

/-- C4 (code_bug evidence): at the failing input `#[1 2 3]` the `vector`
production tags its node `SexprKind::List` — the same constructor a
parenthesized code list `(1 2 3)` receives, not the distinct `Vector`
variant that `sexpr.rs` declares; only the children differ (no synthesized
head).  The claim's distinct-tag behavior is what the data model supports;
the parser contradicts it. -/
theorem c4_vector_eval :
    read "#[1 2 3]"
      = (some ⟨[Sexpr.List
          [.Atom ⟨.Lit (.Int 1), ⟨2, 3⟩⟩ ⟨2, 3⟩,
           .Atom ⟨.Lit (.Int 2), ⟨4, 5⟩⟩ ⟨4, 5⟩,
           .Atom ⟨.Lit (.Int 3), ⟨6, 7⟩⟩ ⟨6, 7⟩] ⟨2, 7⟩], ⟨0, 8⟩⟩, [])
    ∧ read "(1 2 3)"
      = (some ⟨[Sexpr.List
          [.Atom ⟨.Lit (.Int 1), ⟨1, 2⟩⟩ ⟨1, 2⟩,
           .Atom ⟨.Lit (.Int 2), ⟨3, 4⟩⟩ ⟨3, 4⟩,
           .Atom ⟨.Lit (.Int 3), ⟨5, 6⟩⟩ ⟨5, 6⟩] ⟨1, 6⟩], ⟨0, 7⟩⟩, []) :=
  ⟨rfl, rfl⟩

/-- C5: `read "#[]"` succeeds with a tree whose single node has zero
children (the empty vector literal is legal, `repeated()` with no
`at_least`), while `read "()"` fails with a structural parse fault (the
parenthesized list requires at least one child, `.at_least(1)`): the tree
is absent and one `ParseError` is returned. -/
theorem c5_empty_vector_vs_empty_list :
    read "#[]" = (some ⟨[Sexpr.List [] ⟨2, 2⟩], ⟨0, 3⟩⟩, [])
    ∧ read "()" = (none, [SyntaxError.ParseError ⟨0, 1⟩]) :=
  ⟨rfl, rfl⟩

/-- C6 (counterexample): for the successfully read input `"(1)"` the list
node's span is `[1, 2)` — the span of its child only.  The spans `[0, 1)`
and `[2, 3)` of its own delimiting parenthesis tokens are NOT contained in
it, refuting the claim that every node's span is a superset of the spans of
its delimiting tokens. -/
theorem c6_counterexample :
    read "(1)" = (some ⟨[Sexpr.List
        [.Atom ⟨.Lit (.Int 1), ⟨1, 2⟩⟩ ⟨1, 2⟩] ⟨1, 2⟩], ⟨0, 3⟩⟩, [])
    ∧ (stream "(1)").toks.get? 0 = some (Token.LParen, ⟨0, 1⟩)
    ∧ (stream "(1)").toks.get? 2 = some (Token.RParen, ⟨2, 3⟩)
    ∧ ¬ Span.contains ⟨1, 2⟩ ⟨0, 1⟩
    ∧ ¬ Span.contains ⟨1, 2⟩ ⟨2, 3⟩ :=
  ⟨rfl, rfl, rfl, by decide, by decide⟩

/-- C7 (counterexample): for `read "'x"` the synthetic head symbol atom
carries the quote marker token's full span `[0, 1)`, not the zero-width
span `[0, 0)` the claim asserts ( `quote` passes the marker's
`map_with_span` span to `Atom::new` unchanged; only `list_lit` builds a
zero-width span).  The wrapper node's span `[0, 2)` does run from the
marker's start to the wrapped form's end. -/
theorem c7_counterexample :
    read "'x" = (some ⟨[Sexpr.List
        [.Atom ⟨.Sym "quote", ⟨0, 1⟩⟩ ⟨0, 1⟩,
         .Atom ⟨.Sym "x", ⟨1, 2⟩⟩ ⟨1, 2⟩] ⟨0, 2⟩], ⟨0, 2⟩⟩, [])
    ∧ (Span.mk 0 1) ≠ (Span.mk 0 0) :=
  ⟨rfl, by decide⟩

/-- C9: `read "'x"` and `read "(quote x)"` produce structurally identical
trees once all spans are erased: a single top-level two-element code list
whose head is the symbol `quote` and whose second element is the symbol
`x`. -/
theorem c9_quote_sugar_equiv :
    ((read "'x").1.map fun r => r.sexprs.map eraseSpan)
      = ((read "(quote x)").1.map fun r => r.sexprs.map eraseSpan)
    ∧ ((read "'x").1.map fun r => r.sexprs.map eraseSpan)
      = some [Sexpr.List
          [.Atom ⟨.Sym "quote", ⟨0, 0⟩⟩ ⟨0, 0⟩,
           .Atom ⟨.Sym "x", ⟨0, 0⟩⟩ ⟨0, 0⟩] ⟨0, 0⟩] :=
  ⟨rfl, rfl⟩


/-! ## C3: lex faults short-circuit the whole read -/

/-- The error list collected by `read`'s token loop is exactly one
`LexError` per error item of the lexer, in order. -/
theorem collectTokens_fst (items : List (Option Token × Span)) :
    (collectTokens items).1
      = ((items.filter fun it => it.1.isNone).map fun it => it.2).map SyntaxError.LexError := by
  induction items with
  | nil => rfl
  | cons it rest ih =>
    obtain ⟨res, sp⟩ := it
    cases res <;> simp [collectTokens, List.filter_cons, ih]

/-- C3: whenever the lexer marks at least one unscannable range, `read`
returns an absent tree and an error list that is exactly one `LexError`
per unscannable range, in source order, and nothing else — the grammar
stage is never run. -/
theorem c3_lex_fail_fast (src : String) (h : lexFaults src ≠ []) :
    read src = (none, (lexFaults src).map SyntaxError.LexError) := by
  have herr : (collectTokens (lex src)).1 = (lexFaults src).map SyntaxError.LexError := by
    rw [collectTokens_fst]; rfl
  have hne : (collectTokens (lex src)).1.isEmpty = false := by
    rw [herr]
    cases hf : lexFaults src with
    | nil => exact absurd hf h
    | cons a l => rfl
  unfold read
  rcases hc : collectTokens (lex src) with ⟨errs, toks⟩
  rw [hc] at herr hne
  have h2 : errs = (lexFaults src).map SyntaxError.LexError := herr
  have h3 : errs.isEmpty = false := hne
  simp only [h3, Bool.false_eq_true, if_false]
  rw [h2]

/-- Witness for C3: `"@ a @"` has two independent unscannable ranges (the
two stray `@`), and `read` yields no tree and exactly the two
corresponding `LexError`s. -/
theorem c3_lex_fail_fast_witness :
    lexFaults "@ a @" ≠ []
    ∧ read "@ a @" = (none, [SyntaxError.LexError ⟨0, 1⟩, SyntaxError.LexError ⟨4, 5⟩]) :=
  ⟨by decide, by rw [c3_lex_fail_fast "@ a @" (by decide)]; rfl⟩


/-! ## Helper lemmas for the span invariant -/

theorem Span.contains_self (a : Span) : a.contains a := ⟨le_refl _, le_refl _⟩

theorem Span.contains_trans {a b c : Span} (h1 : a.contains b) (h2 : b.contains c) :
    a.contains c :=
  ⟨le_trans h1.1 h2.1, le_trans h2.2 h1.2⟩

theorem orElseO_some {α : Type} {a b : Option α} {v : α}
    (h : orElseO a b = some v) : a = some v ∨ (a = none ∧ b = some v) := by
  cases a with
  | some r => exact Or.inl h
  | none => exact Or.inr ⟨rfl, h⟩

theorem get?_lt {s : TokStream} {i : Nat} {t : Token × Span}
    (h : s.toks.get? i = some t) : i < s.toks.length := by
  by_contra hlt
  rw [List.get?_eq_none.mpr (by omega)] at h
  exact absurd h (by simp)

theorem pIdent_some {s : TokStream} {n : String} {i j : Nat}
    (h : pIdent s i = some (n, j)) : j = i + 1 ∧ i < s.toks.length := by
  unfold pIdent at h
  rcases hg : s.toks.get? i with _ | ⟨tk, sp⟩ <;> rw [hg] at h
  · exact absurd h (by simp)
  · cases tk <;> simp only [Option.some.injEq, Prod.mk.injEq, reduceCtorEq] at h
    exact ⟨h.2.symm, get?_lt hg⟩

theorem pJust_some {t : Token} {s : TokStream} {i j : Nat}
    (h : pJust t s i = some j) : j = i + 1 ∧ i < s.toks.length := by
  unfold pJust at h
  rcases hg : s.toks.get? i with _ | ⟨tk, sp⟩ <;> rw [hg] at h
  · exact absurd h (by simp)
  · dsimp only at h
    by_cases he : tk = t
    · rw [if_pos he] at h
      exact ⟨(Option.some.injEq _ _ ▸ h).symm, get?_lt hg⟩
    · rw [if_neg he] at h
      exact absurd h (by simp)

theorem pLit_some {s : TokStream} {l : Lit} {i j : Nat}
    (h : pLit s i = some (l, j)) : j = i + 1 ∧ i < s.toks.length := by
  unfold pLit at h
  rcases hg : s.toks.get? i with _ | ⟨tk, sp⟩ <;> rw [hg] at h
  · exact absurd h (by simp)
  · cases tk <;> simp only [Option.some.injEq, Prod.mk.injEq, reduceCtorEq] at h <;>
      exact ⟨h.2.symm, get?_lt hg⟩

theorem range_subset (s : TokStream) (hm : s.Monotone) {i j p q : Nat}
    (hip : i ≤ p) (hqj : q ≤ j) (hpq : p < q) (hj : j ≤ s.toks.length) :
    (s.range i j).contains (s.range p q) := by
  have hij : i < j := by omega
  unfold TokStream.range
  rw [if_pos hij, if_pos hpq]
  constructor
  · exact (hm.2 i (by omega) p (by omega) hip).1
  · exact (hm.2 (q - 1) (by omega) (j - 1) (by omega) (by omega)).2

theorem range_subset_zero (s : TokStream) (hm : s.Monotone) {i j p : Nat}
    (hip : i ≤ p) (hpj : p < j) (hj : j ≤ s.toks.length) :
    (s.range i j).contains (s.range p p) := by
  have hij : i < j := by omega
  unfold TokStream.range
  rw [if_pos hij, if_neg (by omega)]
  constructor
  · exact (hm.2 i (by omega) p (by omega) hip).1
  · calc (s.spanAt p).start ≤ (s.spanAt (j - 1)).start :=
          (hm.2 p (by omega) (j - 1) (by omega) (by omega)).1
      _ ≤ (s.spanAt (j - 1)).stop := hm.1 (j - 1) (by omega)

theorem spanAt_subset_range (s : TokStream) (hm : s.Monotone) {i p j : Nat}
    (hip : i ≤ p) (hpj : p < j) (hj : j ≤ s.toks.length) :
    (s.range i j).contains (s.spanAt p) := by
  have hij : i < j := by omega
  unfold TokStream.range
  rw [if_pos hij]
  constructor
  · exact (hm.2 i (by omega) p (by omega) hip).1
  · exact (hm.2 p (by omega) (j - 1) (by omega) (by omega)).2

theorem pPathRest_bound (s : TokStream) :
    ∀ fuel i, i ≤ (pPathRest s fuel i).2 ∧
      ((pPathRest s fuel i).2 ≤ s.toks.length ∨ (pPathRest s fuel i).2 = i) := by
  intro fuel
  induction fuel with
  | zero => intro i; exact ⟨le_refl _, Or.inr rfl⟩
  | succ fuel ih =>
    intro i
    unfold pPathRest
    cases hp : pJust Token.Period s i with
    | none => exact ⟨le_refl _, Or.inr rfl⟩
    | some j =>
      dsimp only
      cases hi : pIdent s j with
      | none => exact ⟨le_refl _, Or.inr rfl⟩
      | some nk =>
        obtain ⟨n, k⟩ := nk
        dsimp only
        rcases hr : pPathRest s fuel k with ⟨ns, r⟩
        obtain ⟨hj1, hjlen⟩ := pJust_some hp
        obtain ⟨hk1, hklen⟩ := pIdent_some hi
        have := ih k
        rw [hr] at this
        refine ⟨by omega, ?_⟩
        rcases this.2 with h2 | h2
        · exact Or.inl h2
        · exact Or.inl (by omega)

theorem pPath_some {s : TokStream} {k : AtomKind} {i j : Nat}
    (h : pPath s i = some (k, j)) : i < j ∧ j ≤ s.toks.length := by
  unfold pPath at h
  cases hi : pIdent s i with
  | none => rw [hi] at h; exact absurd h (by simp)
  | some nj =>
    obtain ⟨n, j0⟩ := nj
    rw [hi] at h
    dsimp only at h
    obtain ⟨hj0, hilen⟩ := pIdent_some hi
    rcases hr : pPathRest s s.toks.length j0 with ⟨ns, r⟩
    rw [hr] at h
    have hb := pPathRest_bound s s.toks.length j0
    rw [hr] at hb
    cases ns with
    | nil => exact absurd h (by simp)
    | cons n2 ns2 =>
      simp only [Option.some.injEq, Prod.mk.injEq] at h
      obtain ⟨-, rfl⟩ := h
      dsimp only at hb
      omega

theorem pAtom_some (s : TokStream) {e : Sexpr} {i j : Nat}
    (h : pAtom s i = some (e, j)) :
    i < j ∧ j ≤ s.toks.length ∧ SpansNested e ∧ (s.range i j).contains e.span := by
  unfold pAtom at h
  cases hp : pPath s i with
  | some kj =>
    obtain ⟨k, j0⟩ := kj
    rw [hp] at h
    simp only [Option.some.injEq, Prod.mk.injEq] at h
    obtain ⟨rfl, rfl⟩ := h
    obtain ⟨h1, h2⟩ := pPath_some hp
    exact ⟨h1, h2, SpansNested.Atom _ _, Span.contains_self _⟩
  | none =>
    rw [hp] at h
    cases hi : pIdent s i with
    | some nj =>
      obtain ⟨n, j0⟩ := nj
      rw [hi] at h
      simp only [Option.some.injEq, Prod.mk.injEq] at h
      obtain ⟨rfl, rfl⟩ := h
      obtain ⟨rfl, h2⟩ := pIdent_some hi
      exact ⟨by omega, by omega, SpansNested.Atom _ _, Span.contains_self _⟩
    | none =>
      rw [hi] at h
      cases hl : pLit s i with
      | some lj =>
        obtain ⟨l, j0⟩ := lj
        rw [hl] at h
        simp only [Option.some.injEq, Prod.mk.injEq] at h
        obtain ⟨rfl, rfl⟩ := h
        obtain ⟨rfl, h2⟩ := pLit_some hl
        exact ⟨by omega, by omega, SpansNested.Atom _ _, Span.contains_self _⟩
      | none => rw [hl] at h; exact absurd h (by simp)


/-! ## The span invariant of the grammar (for C6) -/

/-- Simultaneous induction over the fuel: every successful `pSexpr` parse
satisfies `SexprInv` and every `pMany` run satisfies `ManyInv`, on any
stream with ordered spans. -/
theorem parse_inv (s : TokStream) (hm : s.Monotone) :
    ∀ fuel : Nat,
      (∀ i e j, pSexpr s fuel i = some (e, j) → SexprInv s i e j)
      ∧
      (∀ i cs k, pMany s fuel i = (cs, k) → ManyInv s i cs k) := by
  intro fuel
  induction fuel with
  | zero =>
    constructor
    · intro i e j h; exact absurd h (by simp [pSexpr])
    · intro i cs k h
      simp only [pMany, Prod.mk.injEq] at h
      obtain ⟨rfl, rfl⟩ := h
      exact ⟨le_refl _, Or.inr rfl, fun _ => rfl, fun hne => absurd rfl hne, by simp⟩
  | succ fuel ih =>
    obtain ⟨ihS, ihM⟩ := ih
    constructor
    · intro i e j h
      simp only [pSexpr] at h
      -- variadic production
      rcases orElseO_some h with hv | ⟨-, h⟩
      · rcases hid : pIdent s i with _ | ⟨n, i1⟩ <;> rw [hid] at hv
        · exact absurd hv (by simp)
        · dsimp only at hv
          rcases hel : pJust Token.Ellipsis s i1 with _ | k <;> rw [hel] at hv
          · exact absurd hv (by simp)
          · dsimp only at hv
            simp only [Option.some.injEq, Prod.mk.injEq] at hv
            obtain ⟨rfl, rfl⟩ := hv
            obtain ⟨rfl, hilen⟩ := pIdent_some hid
            obtain ⟨rfl, hklen⟩ := pJust_some hel
            refine ⟨by omega, by omega, ?_, Span.contains_self _⟩
            refine SpansNested.List _ _ ?_ ?_
            · intro x hx
              rcases List.mem_cons.mp hx with rfl | hx
              · exact Span.contains_self _
              · rcases List.mem_singleton.mp hx with rfl
                exact Span.contains_self _
            · intro x hx
              rcases List.mem_cons.mp hx with rfl | hx
              · exact SpansNested.Atom _ _
              · rcases List.mem_singleton.mp hx with rfl
                exact SpansNested.Atom _ _
      -- list production
      rcases orElseO_some h with hl | ⟨-, h⟩
      · rcases hlp : pJust Token.LParen s i with _ | i1 <;> rw [hlp] at hl
        · exact absurd hl (by simp)
        · dsimp only at hl
          rcases hmany : pMany s fuel i1 with ⟨cs, k⟩
          rw [hmany] at hl
          dsimp only at hl
          by_cases hcs : cs.isEmpty = true
          · rw [if_pos hcs] at hl; exact absurd hl (by simp)
          · rw [if_neg hcs] at hl
            rcases hrp : pJust Token.RParen s k with _ | m <;> rw [hrp] at hl
            · exact absurd hl (by simp)
            · dsimp only at hl
              simp only [Option.some.injEq, Prod.mk.injEq] at hl
              obtain ⟨rfl, rfl⟩ := hl
              obtain ⟨rfl, hilen⟩ := pJust_some hlp
              obtain ⟨rfl, hklen⟩ := pJust_some hrp
              obtain ⟨h1, h2, h3, h4, h5⟩ := ihM _ _ _ hmany
              have hne : cs ≠ [] := by
                intro hh; rw [hh] at hcs; exact hcs rfl
              have hik : i + 1 < k := h4 hne
              refine ⟨by omega, by omega, ?_, ?_⟩
              · exact SpansNested.List _ _ (fun c hc => (h5 c hc).2) (fun c hc => (h5 c hc).1)
              · exact range_subset s hm (by omega) (by omega) hik (by omega)
      -- list_lit production
      rcases orElseO_some h with hb | ⟨-, h⟩
      · rcases hlb : pJust Token.LBrack s i with _ | i1 <;> rw [hlb] at hb
        · exact absurd hb (by simp)
        · dsimp only at hb
          rcases hmany : pMany s fuel i1 with ⟨cs, k⟩
          rw [hmany] at hb
          dsimp only at hb
          by_cases hcs : cs.isEmpty = true
          · rw [if_pos hcs] at hb; exact absurd hb (by simp)
          · rw [if_neg hcs] at hb
            rcases hrb : pJust Token.RBrack s k with _ | m <;> rw [hrb] at hb
            · exact absurd hb (by simp)
            · dsimp only at hb
              simp only [Option.some.injEq, Prod.mk.injEq] at hb
              obtain ⟨rfl, rfl⟩ := hb
              obtain ⟨rfl, hilen⟩ := pJust_some hlb
              obtain ⟨rfl, hklen⟩ := pJust_some hrb
              obtain ⟨h1, h2, h3, h4, h5⟩ := ihM _ _ _ hmany
              have hne : cs ≠ [] := by
                intro hh; rw [hh] at hcs; exact hcs rfl
              have hik : i + 1 < k := h4 hne
              refine ⟨by omega, by omega, ?_, ?_⟩
              · refine SpansNested.List _ _ ?_ ?_
                · intro c hc
                  rcases List.mem_cons.mp hc with rfl | hc
                  · exact Span.contains_self _
                  · exact (h5 c hc).2
                · intro c hc
                  rcases List.mem_cons.mp hc with rfl | hc
                  · exact SpansNested.Atom _ _
                  · exact (h5 c hc).1
              · exact range_subset s hm (by omega) (by omega) hik (by omega)
      -- vector production
      rcases orElseO_some h with hw | ⟨-, h⟩
      · rcases hhb : pJust Token.HashLBrack s i with _ | i1 <;> rw [hhb] at hw
        · exact absurd hw (by simp)
        · dsimp only at hw
          rcases hmany : pMany s fuel i1 with ⟨cs, k⟩
          rw [hmany] at hw
          dsimp only at hw
          rcases hrb : pJust Token.RBrack s k with _ | m <;> rw [hrb] at hw
          · exact absurd hw (by simp)
          · dsimp only at hw
            simp only [Option.some.injEq, Prod.mk.injEq] at hw
            obtain ⟨rfl, rfl⟩ := hw
            obtain ⟨rfl, hilen⟩ := pJust_some hhb
            obtain ⟨rfl, hklen⟩ := pJust_some hrb
            obtain ⟨h1, h2, h3, h4, h5⟩ := ihM _ _ _ hmany
            refine ⟨by omega, by omega, ?_, ?_⟩
            · exact SpansNested.List _ _ (fun c hc => (h5 c hc).2) (fun c hc => (h5 c hc).1)
            · by_cases hcs : cs = []
              · have hki : k = i + 1 := h3 hcs
                subst hki
                exact range_subset_zero s hm (by omega) (by omega) (by omega)
              · exact range_subset s hm (by omega) (by omega) (h4 hcs) (by omega)
      -- quote production
      rcases orElseO_some h with hq | ⟨-, h⟩
      · rcases hqt : pJust Token.Quote s i with _ | i1 <;> rw [hqt] at hq
        · exact absurd hq (by simp)
        · dsimp only at hq
          rcases hin : pSexpr s fuel i1 with _ | ⟨e0, k⟩ <;> rw [hin] at hq
          · exact absurd hq (by simp)
          · dsimp only at hq
            simp only [Option.some.injEq, Prod.mk.injEq] at hq
            obtain ⟨rfl, rfl⟩ := hq
            obtain ⟨rfl, hilen⟩ := pJust_some hqt
            obtain ⟨hik, hklen, hnest0, hcont0⟩ := ihS _ _ _ hin
            refine ⟨by omega, hklen, ?_, Span.contains_self _⟩
            refine SpansNested.List _ _ ?_ ?_
            · intro c hc
              rcases List.mem_cons.mp hc with rfl | hc
              · exact spanAt_subset_range s hm (le_refl i) (by omega) hklen
              · rcases List.mem_singleton.mp hc with rfl
                exact Span.contains_trans
                  (range_subset s hm (by omega) (le_refl _) hik hklen) hcont0
            · intro c hc
              rcases List.mem_cons.mp hc with rfl | hc
              · exact SpansNested.Atom _ _
              · rcases List.mem_singleton.mp hc with rfl
                exact hnest0
      -- quasiquote production
      rcases orElseO_some h with hq | ⟨-, h⟩
      · rcases hqt : pJust Token.Backquote s i with _ | i1 <;> rw [hqt] at hq
        · exact absurd hq (by simp)
        · dsimp only at hq
          rcases hin : pSexpr s fuel i1 with _ | ⟨e0, k⟩ <;> rw [hin] at hq
          · exact absurd hq (by simp)
          · dsimp only at hq
            simp only [Option.some.injEq, Prod.mk.injEq] at hq
            obtain ⟨rfl, rfl⟩ := hq
            obtain ⟨rfl, hilen⟩ := pJust_some hqt
            obtain ⟨hik, hklen, hnest0, hcont0⟩ := ihS _ _ _ hin
            refine ⟨by omega, hklen, ?_, Span.contains_self _⟩
            refine SpansNested.List _ _ ?_ ?_
            · intro c hc
              rcases List.mem_cons.mp hc with rfl | hc
              · exact spanAt_subset_range s hm (le_refl i) (by omega) hklen
              · rcases List.mem_singleton.mp hc with rfl
                exact Span.contains_trans
                  (range_subset s hm (by omega) (le_refl _) hik hklen) hcont0
            · intro c hc
              rcases List.mem_cons.mp hc with rfl | hc
              · exact SpansNested.Atom _ _
              · rcases List.mem_singleton.mp hc with rfl
                exact hnest0
      -- unquote production
      rcases orElseO_some h with hq | ⟨-, h⟩
      · rcases hqt : pJust Token.Comma s i with _ | i1 <;> rw [hqt] at hq
        · exact absurd hq (by simp)
        · dsimp only at hq
          rcases hin : pSexpr s fuel i1 with _ | ⟨e0, k⟩ <;> rw [hin] at hq
          · exact absurd hq (by simp)
          · dsimp only at hq
            simp only [Option.some.injEq, Prod.mk.injEq] at hq
            obtain ⟨rfl, rfl⟩ := hq
            obtain ⟨rfl, hilen⟩ := pJust_some hqt
            obtain ⟨hik, hklen, hnest0, hcont0⟩ := ihS _ _ _ hin
            refine ⟨by omega, hklen, ?_, Span.contains_self _⟩
            refine SpansNested.List _ _ ?_ ?_
            · intro c hc
              rcases List.mem_cons.mp hc with rfl | hc
              · exact spanAt_subset_range s hm (le_refl i) (by omega) hklen
              · rcases List.mem_singleton.mp hc with rfl
                exact Span.contains_trans
                  (range_subset s hm (by omega) (le_refl _) hik hklen) hcont0
            · intro c hc
              rcases List.mem_cons.mp hc with rfl | hc
              · exact SpansNested.Atom _ _
              · rcases List.mem_singleton.mp hc with rfl
                exact hnest0
      -- unquote_splice production
      rcases orElseO_some h with hq | ⟨-, h⟩
      · rcases hqt : pJust Token.CommaAt s i with _ | i1 <;> rw [hqt] at hq
        · exact absurd hq (by simp)
        · dsimp only at hq
          rcases hin : pSexpr s fuel i1 with _ | ⟨e0, k⟩ <;> rw [hin] at hq
          · exact absurd hq (by simp)
          · dsimp only at hq
            simp only [Option.some.injEq, Prod.mk.injEq] at hq
            obtain ⟨rfl, rfl⟩ := hq
            obtain ⟨rfl, hilen⟩ := pJust_some hqt
            obtain ⟨hik, hklen, hnest0, hcont0⟩ := ihS _ _ _ hin
            refine ⟨by omega, hklen, ?_, Span.contains_self _⟩
            refine SpansNested.List _ _ ?_ ?_
            · intro c hc
              rcases List.mem_cons.mp hc with rfl | hc
              · exact spanAt_subset_range s hm (le_refl i) (by omega) hklen
              · rcases List.mem_singleton.mp hc with rfl
                exact Span.contains_trans
                  (range_subset s hm (by omega) (le_refl _) hik hklen) hcont0
            · intro c hc
              rcases List.mem_cons.mp hc with rfl | hc
              · exact SpansNested.Atom _ _
              · rcases List.mem_singleton.mp hc with rfl
                exact hnest0
      -- atom production (last alternative)
      exact pAtom_some s h
    · intro i cs k h
      simp only [pMany] at h
      rcases hS : pSexpr s fuel i with _ | ⟨e, j⟩ <;> rw [hS] at h
      · simp only [Prod.mk.injEq] at h
        obtain ⟨rfl, rfl⟩ := h
        exact ⟨le_refl _, Or.inr rfl, fun _ => rfl, fun hne => absurd rfl hne, by simp⟩
      · dsimp only at h
        rcases hM : pMany s fuel j with ⟨es, k2⟩
        rw [hM] at h
        dsimp only at h
        simp only [Prod.mk.injEq] at h
        obtain ⟨rfl, rfl⟩ := h
        obtain ⟨hij, hjlen, hnest, hcont⟩ := ihS _ _ _ hS
        obtain ⟨h1, h2, h3, h4, h5⟩ := ihM _ _ _ hM
        have hk2len : k2 ≤ s.toks.length := by
          rcases h2 with h2 | h2
          · exact h2
          · omega
        refine ⟨by omega, Or.inl hk2len, fun hh => absurd hh (by simp),
          fun _ => by omega, ?_⟩
        intro c hc
        rcases List.mem_cons.mp hc with rfl | hc
        · refine ⟨hnest, ?_⟩
          by_cases hje : j = k2
          · rw [← hje]; exact hcont
          · exact Span.contains_trans
              (range_subset s hm (le_refl i) (by omega) hij hk2len) hcont
        · have hes : es ≠ [] := List.ne_nil_of_mem hc
          have hjk2 : j < k2 := h4 hes
          exact ⟨(h5 c hc).1, Span.contains_trans
            (range_subset s hm (by omega) (le_refl k2) hjk2 hk2len) ((h5 c hc).2)⟩


theorem orElseO_none {α : Type} (b : Option α) : orElseO none b = b := rfl

/-- C6 (amended): for every successfully read input whose token stream has
ordered spans, every node's span contains the spans of all of its children
(recursively); the spans of the delimiting tokens are not covered, since a
delimited node's span covers exactly its children (the counterexample
`c6_counterexample` shows the delimiter part of the original claim is
false). -/
theorem c6_children_spans (src : String) (root : Root) (errs : List SyntaxError)
    (hm : (stream src).Monotone) (h : read src = (some root, errs)) :
    ∀ e ∈ root.sexprs, SpansNested e := by
  unfold read at h
  rcases hc : collectTokens (lex src) with ⟨errs0, toks⟩
  rw [hc] at h
  dsimp only at h
  have hst : stream src = ⟨toks, ⟨src.length, src.length⟩⟩ := by
    unfold stream; rw [hc]
  rw [hst] at hm
  by_cases hbe : errs0.isEmpty = true
  · rw [if_pos hbe] at h
    unfold pRoot at h
    rcases hmany : pMany ⟨toks, ⟨src.length, src.length⟩⟩ (2 * toks.length + 2) 0
      with ⟨es, k⟩
    rw [hmany] at h
    dsimp only at h
    by_cases hk : k = toks.length
    · rw [if_pos hk] at h
      simp only [Prod.mk.injEq, Option.some.injEq] at h
      obtain ⟨rfl, -⟩ := h
      intro e he
      have hinv :=
        (parse_inv ⟨toks, ⟨src.length, src.length⟩⟩ hm (2 * toks.length + 2)).2 0 es k hmany
      exact ((hinv.2.2.2.2) e he).1
    · rw [if_neg hk] at h
      exact absurd h (by simp)
  · rw [if_neg hbe] at h
    exact absurd h (by simp)

/-- Witness for C6 (amended): at the input `"(1)"` the invariant holds of
the returned tree. -/
theorem c6_children_spans_witness :
    SpansNested (Sexpr.List [Sexpr.Atom ⟨.Lit (.Int 1), ⟨1, 2⟩⟩ ⟨1, 2⟩] ⟨1, 2⟩) :=
  c6_children_spans "(1)"
    ⟨[Sexpr.List [Sexpr.Atom ⟨.Lit (.Int 1), ⟨1, 2⟩⟩ ⟨1, 2⟩] ⟨1, 2⟩], ⟨0, 3⟩⟩ []
    (by decide) rfl
    (Sexpr.List [Sexpr.Atom ⟨.Lit (.Int 1), ⟨1, 2⟩⟩ ⟨1, 2⟩] ⟨1, 2⟩)
    (List.mem_cons_self _ _)


/-- C7 (amended): for every quote-family marker (quote, quasiquote,
unquote, unquote-splicing) followed by a parsed sexpr, the synthetic head
symbol atom carries the marker token's own span `[marker_start,
marker_end)` (not the zero-width span of the original claim), and the
wrapper node's span runs from the marker's start to the end of the wrapped
form (`s.range i k`). -/
theorem c7_marker_span (s : TokStream) (fuel i k : Nat) (tok : Token)
    (name : String) (sp : Span) (e0 : Sexpr)
    (hmem : (tok, name) ∈ [(Token.Quote, "quote"), (Token.Backquote, "quasiquote"),
      (Token.Comma, "unquote"), (Token.CommaAt, "unquote-splicing")])
    (htok : s.toks.get? i = some (tok, sp))
    (hin : pSexpr s fuel (i + 1) = some (e0, k)) :
    pSexpr s (fuel + 1) i
      = some (Sexpr.List [.Atom ⟨.Sym name, sp⟩ sp, e0] (s.range i k), k) := by
  have hsp : s.spanAt i = sp := by unfold TokStream.spanAt; rw [htok]
  simp only [List.mem_cons, List.not_mem_nil, or_false, Prod.mk.injEq] at hmem
  rcases hmem with ⟨rfl, rfl⟩ | ⟨rfl, rfl⟩ | ⟨rfl, rfl⟩ | ⟨rfl, rfl⟩ <;>
    simp only [pSexpr, pIdent, pJust, orElseO, htok, hin, hsp, reduceCtorEq, reduceIte]

/-- Witness for C7 (amended): the quote marker of the two-token stream of
the source text quote-x, marker span `[0,1)`, wrapped symbol span
`[1,2)`. -/
theorem c7_marker_span_witness :
    pSexpr (stream "'x") 2 0
      = some (Sexpr.List [.Atom ⟨.Sym "quote", ⟨0, 1⟩⟩ ⟨0, 1⟩,
          .Atom ⟨.Sym "x", ⟨1, 2⟩⟩ ⟨1, 2⟩] ((stream "'x").range 0 2), 2) :=
  c7_marker_span (stream "'x") 1 0 2 Token.Quote "quote" ⟨0, 1⟩
    (.Atom ⟨.Sym "x", ⟨1, 2⟩⟩ ⟨1, 2⟩) (by decide) rfl rfl

/-- C8: an identifier token immediately followed by an ellipsis token
desugars to the two-element list `(varg identifier)` (the `variadic`
production, tried first), for every identifier name and any token spans;
`read "foo..."` yields that desugaring while `read "foo"` yields a bare
symbol atom. -/
theorem c8_variadic_desugar :
    (∀ (n : String) (sp1 sp2 eoi : Span) (fuel : Nat),
      pSexpr ⟨[(Token.Ident n, sp1), (Token.Ellipsis, sp2)], eoi⟩ (fuel + 1) 0
        = some (Sexpr.List
            [.Atom ⟨.Sym "varg", ⟨sp1.start, sp2.stop⟩⟩ ⟨sp1.start, sp2.stop⟩,
             .Atom ⟨.Sym n, ⟨sp1.start, sp2.stop⟩⟩ ⟨sp1.start, sp2.stop⟩]
            ⟨sp1.start, sp2.stop⟩, 2))
    ∧ read "foo..." = (some ⟨[Sexpr.List
        [.Atom ⟨.Sym "varg", ⟨0, 6⟩⟩ ⟨0, 6⟩,
         .Atom ⟨.Sym "foo", ⟨0, 6⟩⟩ ⟨0, 6⟩] ⟨0, 6⟩], ⟨0, 6⟩⟩, [])
    ∧ read "foo" = (some ⟨[Sexpr.Atom ⟨.Sym "foo", ⟨0, 3⟩⟩ ⟨0, 3⟩], ⟨0, 3⟩⟩, []) :=
  ⟨fun _ _ _ _ _ => rfl, rfl, rfl⟩


/-! ## C10: dotted paths -/

theorem pairToks_length (ns : List String) : (pairToks ns).length = 2 * ns.length := by
  induction ns with
  | nil => rfl
  | cons n ns ih => simp [pairToks, ih]; omega

theorem pairToks_snd {ns : List String} {t : Token × Span} (h : t ∈ pairToks ns) :
    t.2 = ⟨0, 0⟩ := by
  induction ns with
  | nil => exact absurd h (List.not_mem_nil _)
  | cons n ns ih =>
    rcases List.mem_cons.mp h with rfl | h2
    · rfl
    · rcases List.mem_cons.mp h2 with rfl | h3
      · rfl
      · exact ih h3

theorem pPathRest_pairs (s : TokStream) (ns : List String) :
    ∀ (fuel i : Nat) (pre : List (Token × Span)),
      s.toks = pre ++ pairToks ns → i = pre.length → ns.length ≤ fuel →
      pPathRest s fuel i = (ns, i + 2 * ns.length) := by
  induction ns with
  | nil =>
    intro fuel i pre htoks hi hf
    have hg : s.toks.get? i = none := by
      rw [htoks, hi]
      apply List.get?_eq_none.mpr
      simp [pairToks]
    have hpj : pJust Token.Period s i = none := by
      unfold pJust; rw [hg]
    cases fuel with
    | zero => simp [pPathRest]
    | succ fuel =>
      unfold pPathRest
      rw [hpj]
      simp
  | cons n ns ih =>
    intro fuel i pre htoks hi hf
    cases fuel with
    | zero => exact absurd hf (by simp)
    | succ fuel =>
      have hg : s.toks.get? i = some (Token.Period, ⟨0, 0⟩) := by
        rw [htoks, hi, List.get?_append_right (le_refl _)]
        simp [pairToks]
      have hg2 : s.toks.get? (i + 1) = some (Token.Ident n, ⟨0, 0⟩) := by
        rw [htoks, hi, List.get?_append_right (by omega)]
        have : pre.length + 1 - pre.length = 1 := by omega
        rw [this]
        simp [pairToks]
      have hpj : pJust Token.Period s i = some (i + 1) := by
        unfold pJust; rw [hg]; rfl
      have hpi : pIdent s (i + 1) = some (n, i + 2) := by
        unfold pIdent; rw [hg2]
      have hrec := ih fuel (i + 2) (pre ++ [(Token.Period, ⟨0, 0⟩), (Token.Ident n, ⟨0, 0⟩)])
        (by rw [htoks]; simp [pairToks]) (by simp; omega) (by simp at hf; omega)
      unfold pPathRest
      rw [hpj]
      dsimp only
      rw [hpi]
      dsimp only
      rw [hrec]
      simp
      omega


/-- C10: an identifier followed by one or more period-identifier pairs
parses as a single Atom of kind `Path` holding the full ordered name
sequence (at least two names), for every choice of names; concretely,
`read "a.b.c"` yields one Path atom with three names, `read "a.b.c.d"`
one with four, and a single identifier (`read "x"`) is a bare symbol,
never a Path. -/
theorem c10_path_desugar :
    (∀ (a b : String) (rest : List String) (fuel : Nat),
      pSexpr ⟨pathToks a (b :: rest), ⟨0, 0⟩⟩ (fuel + 1) 0
        = some (.Atom ⟨.Path (a :: b :: rest), ⟨0, 0⟩⟩ ⟨0, 0⟩, 3 + 2 * rest.length))
    ∧ read "a.b.c"
      = (some ⟨[.Atom ⟨.Path ["a", "b", "c"], ⟨0, 5⟩⟩ ⟨0, 5⟩], ⟨0, 5⟩⟩, [])
    ∧ read "a.b.c.d"
      = (some ⟨[.Atom ⟨.Path ["a", "b", "c", "d"], ⟨0, 7⟩⟩ ⟨0, 7⟩], ⟨0, 7⟩⟩, [])
    ∧ read "x" = (some ⟨[.Atom ⟨.Sym "x", ⟨0, 1⟩⟩ ⟨0, 1⟩], ⟨0, 1⟩⟩, []) := by
  refine ⟨?_, rfl, rfl, rfl⟩
  intro a b rest fuel
  set s : TokStream := ⟨pathToks a (b :: rest), ⟨0, 0⟩⟩ with hs
  have hspan : ∀ i, s.spanAt i = ⟨0, 0⟩ := by
    intro i
    unfold TokStream.spanAt
    cases hg : s.toks.get? i with
    | none => rfl
    | some t =>
      have hmem : t ∈ s.toks := List.get?_mem hg
      rw [hs] at hmem
      rcases List.mem_cons.mp hmem with rfl | h2
      · rfl
      · exact pairToks_snd h2
  have hrange : ∀ i j, s.range i j = ⟨0, 0⟩ := by
    intro i j
    unfold TokStream.range
    rw [hspan, hspan]
    split <;> rfl
  have hlen : s.toks.length = 3 + 2 * rest.length := by
    show (pathToks a (b :: rest)).length = 3 + 2 * rest.length
    simp [pathToks, pairToks_length]
    omega
  have hident : pIdent s 0 = some (a, 1) := rfl
  have hvar : pJust Token.Ellipsis s 1 = none := rfl
  have hrest := pPathRest_pairs s (b :: rest) s.toks.length 1 [(Token.Ident a, ⟨0, 0⟩)]
    rfl rfl (by rw [hlen]; simp; omega)
  have hppath : pPath s 0 = some (.Path (a :: b :: rest), 3 + 2 * rest.length) := by
    unfold pPath
    rw [hident]
    dsimp only
    rw [hrest]
    have harith : 1 + 2 * (b :: rest).length = 3 + 2 * rest.length := by simp; omega
    rw [harith]
  have hatom : pAtom s 0
      = some (.Atom ⟨.Path (a :: b :: rest), ⟨0, 0⟩⟩ ⟨0, 0⟩, 3 + 2 * rest.length) := by
    unfold pAtom
    rw [hppath]
    dsimp only
    rw [hrange]
  simp only [pSexpr, hident, hvar, orElseO, hatom]
  rfl

end Lust
